import Mathlib

/-!
Verification of the dunl_kg_dashboard enrichment pipeline
(`src/enrich_metadata.py`, `src/generate_dashboard.py`, `src/ingest_dunl.py`).

Modeling conventions:
* Python strings are Lean `String` (text processing happens on `List Char`).
* Python floats carrying similarity scores and prices are `ℚ`; a missing
  value (NaN cell in a pandas column) is `Option.none`.
* The rapidfuzz similarity scorer is an external library function and is an
  abstract parameter `scorer : String → String → ℚ`; `process.extractOne`
  itself (iterate over the choices, keep the first strictly-best one) is
  embedded concretely.
* Fallible external calls (`yf.download`) are an `Except` parameter.
-/

namespace DunlKG

/- ================================================================
   Definitions: Python string primitives
   ================================================================ -/

/-- Python whitespace (the ASCII characters removed by `str.strip()`). -/
def pyIsSpace (c : Char) : Bool :=
  c = ' ' || c = '\t' || c = '\n' || c = '\r' || c = '\x0b' || c = '\x0c'

/-- Worker for Python `text.replace(pat, '')`: `skip` counts characters of a
matched occurrence that remain to be dropped.  Replacement is non-overlapping
and left-to-right, as in CPython. -/
def pyReplaceGo (pat : List Char) : List Char → Nat → List Char
  | [], _ => []
  | _ :: rest, (skip + 1) => pyReplaceGo pat rest skip
  | c :: rest, 0 =>
    if pat.isPrefixOf (c :: rest) && !pat.isEmpty then
      pyReplaceGo pat rest (pat.length - 1)
    else
      c :: pyReplaceGo pat rest 0

/-- Python `text.replace(pat, '')` on character lists. -/
def pyReplace (pat s : List Char) : List Char := pyReplaceGo pat s 0

/-- Python `pat in s` (substring containment) on character lists. -/
def hasSub (pat : List Char) : List Char → Bool
  | [] => pat.isEmpty
  | c :: rest => pat.isPrefixOf (c :: rest) || hasSub pat rest

/-- Python `s.strip()` on character lists. -/
def stripL (s : List Char) : List Char :=
  ((s.dropWhile pyIsSpace).reverse.dropWhile pyIsSpace).reverse

/-- The fixed noise-word list of `clean_text` (src/enrich_metadata.py). -/
def noise_words : List String :=
  ["FOB", "CIF", "CFR", "DES", "Port Charge", "Disport Charge", "Cargo",
   "Blend", "Strip", "vs"]

/-- `clean_text` of src/enrich_metadata.py on character lists: first remove
every literal period, then remove each noise word in list order, then strip
surrounding whitespace. -/
def cleanTextL (s : List Char) : List Char :=
  stripL ((noise_words.map String.data).foldl (fun t w => pyReplace w t)
    (pyReplace ['.'] s))

/-- `clean_text` of src/enrich_metadata.py. -/
def clean_text (s : String) : String := ⟨cleanTextL s.data⟩

/- ================================================================
   Definitions: domain records and static configuration
   ================================================================ -/

/-- A processed port record.  Only the fields read by
src/enrich_metadata.py are modeled (`lat`, `lng`, `dunl_uri` are never read
there). -/
structure Port where
  id : String
  name : String
  region : String
  deriving DecidableEq

/-- A processed benchmark record.  Only the fields read by
src/enrich_metadata.py are modeled (`uom`, `dunl_uri` are never read there). -/
structure Benchmark where
  id : String
  symbol : String
  description : String
  commodity : String
  currency : String
  deriving DecidableEq

/-- A processed currency record (`build_knowledge_graph` receives but never
reads these). -/
structure Currency where
  code : String
  label : String
  deriving DecidableEq

/-- `SYMBOL_MAP` of src/enrich_metadata.py 12-20, in insertion order. -/
def SYMBOL_MAP : List (String × String) :=
  [("AAGZU00", "CL=F"), ("TS01021", "TI=F"), ("AAIDC00", "HO=F"),
   ("AAGJA00", "RB=F"), ("TS01034", "MTF=F"), ("WAUSA00", "ZW=F"),
   ("SP500", "^GSPC")]

/-- The keys of `SYMBOL_MAP` (the whitelist used by `b['id'] in SYMBOL_MAP`). -/
def symbolMapKeys : List String := SYMBOL_MAP.map Prod.fst

/-- Color attribute of an edge dict: either a plain color string or the
`{color, opacity}` dict used on dynamic links. -/
inductive EdgeColor where
  | plain (c : String)
  | withOpacity (c : String) (o : ℚ)
  deriving DecidableEq

/-- The float literal `0.6` of the link style. -/
def linkOpacity : ℚ := mkRat 6 10

/-- An edge dict.  Python's heterogeneous dicts are modeled with `Option`
fields for keys present on only some edges; `from`/`to` are `efrom`/`eto`
because `from` is reserved in Lean. -/
structure Edge where
  efrom : String
  eto : String
  label : Option String
  title : Option String
  arrows : Option String
  color : EdgeColor
  dashes : Option Bool
  length : Option Nat
  deriving DecidableEq

/-- A single-quote character, kept out of string literals. -/
def sq : String := ⟨[Char.ofNat 39]⟩

/-- The tooltip f-string of a dynamic link. -/
def mkMatchTitle (matched desc : String) : String :=
  "Match Logic: Found " ++ sq ++ matched ++ sq ++ " in " ++ sq ++ desc ++ sq

/-- The link dict appended for a benchmark that cleared the threshold
(src/enrich_metadata.py 62-70). -/
def mkLink (b : Benchmark) (matched : String) (pid : String) : Edge :=
  { efrom := b.id, eto := pid, label := some "Pricing Location",
    title := some (mkMatchTitle matched b.description), arrows := some "to",
    color := .withOpacity "#64748b" linkOpacity, dashes := some true,
    length := none }

/- ================================================================
   Definitions: entity resolver
   ================================================================ -/

/-- Insertion into a Python dict modeled as an ordered association list:
overwriting keeps the original key position (last write wins for the value). -/
def dictInsert (d : List (String × String)) (k v : String) :
    List (String × String) :=
  if d.any (fun kv => kv.1 == k) then
    d.map (fun kv => if kv.1 == k then (kv.1, v) else kv)
  else d ++ [(k, v)]

/-- Python `d[k]` / `d.get(k)` on the association-list dict. -/
def dictLookup (d : List (String × String)) (k : String) : Option String :=
  (d.find? (fun kv => kv.1 == k)).map Prod.snd

/-- The `port_lookup` dict `{clean_text(p['name']): p['id'] for p in ports}`. -/
def portLookup (ports : List Port) : List (String × String) :=
  ports.foldl (fun d p => dictInsert d (clean_text p.name) p.id) []

/-- `port_names = list(port_lookup.keys())`. -/
def portNamesOf (ports : List Port) : List String :=
  (portLookup ports).map Prod.fst

/-- One step of `process.extractOne`: keep the strictly better candidate, so
the first of several best-scoring choices wins. -/
def extractStep (scorer : String → String → ℚ) (query : String)
    (acc : Option (String × ℚ)) (c : String) : Option (String × ℚ) :=
  match acc with
  | none => some (c, scorer query c)
  | some (b, s) => if s < scorer query c then some (c, scorer query c) else acc

/-- `process.extractOne(query, choices, scorer)`: `none` iff `choices` is
empty, otherwise the first best-scoring choice with its score. -/
def extractOne (scorer : String → String → ℚ) (query : String)
    (choices : List String) : Option (String × ℚ) :=
  choices.foldl (extractStep scorer query) none

/-- Loop body of `resolve_logistics_links` for one benchmark: clean the
description, fuzzy-match it, and emit a link iff the best score exceeds 80. -/
def resolveOne (scorer : String → String → ℚ) (lookup : List (String × String))
    (names : List String) (b : Benchmark) : Option Edge :=
  match extractOne scorer (clean_text b.description) names with
  | none => none
  | some (best, score) =>
    if (80 : ℚ) < score then
      match dictLookup lookup best with
      | some pid => some (mkLink b best pid)
      | none => none
    else none

/-- `resolve_logistics_links` of src/enrich_metadata.py: one pass over the
benchmarks, appending at most one link each. -/
def resolve_logistics_links (scorer : String → String → ℚ)
    (benchmarks : List Benchmark) (ports : List Port) : List Edge :=
  benchmarks.filterMap
    (resolveOne scorer (portLookup ports) (portNamesOf ports))

/-- Maximum of a rational list (`none` on the empty list). -/
def listMaxQ : List ℚ → Option ℚ
  | [] => none
  | x :: t => some (t.foldl max x)

/-- The highest similarity score of a benchmark's cleaned description against
the cleaned port names (specification-side expression for claim C1). -/
def bestScore (scorer : String → String → ℚ) (ports : List Port)
    (b : Benchmark) : Option ℚ :=
  listMaxQ (ports.map (fun p =>
    scorer (clean_text b.description) (clean_text p.name)))

/- ================================================================
   Definitions: graph assembler
   ================================================================ -/

/-- A node dict.  `title` is `Option` because commodity and currency nodes
carry no `title` key. -/
structure Node where
  id : String
  label : String
  group : String
  title : Option String
  value : Nat
  deriving DecidableEq

/-- Benchmark node (src/enrich_metadata.py 103-109). -/
def benchNode (b : Benchmark) : Node :=
  { id := b.id, label := b.symbol, group := "benchmark",
    title := some ("<b>" ++ b.description ++ "</b><br>ID: " ++ b.id),
    value := 25 }

/-- Commodity family node (src/enrich_metadata.py 115). -/
def commodityNode (c : String) : Node :=
  { id := c, label := c, group := "commodity", title := none, value := 40 }

/-- Currency node (src/enrich_metadata.py 121). -/
def currencyNode (c : String) : Node :=
  { id := c, label := c, group := "currency", title := none, value := 15 }

/-- Python `str.replace(pat, '')` on `String`. -/
def pyReplaceS (pat s : String) : String := ⟨pyReplace pat.data s.data⟩

/-- Port node (src/enrich_metadata.py 130-136): the label is the port name
with the two suffix phrases removed, first `" Port Charge"` then
`" Disport Charge"`. -/
def portNode (p : Port) : Node :=
  { id := p.id,
    label := pyReplaceS " Disport Charge" (pyReplaceS " Port Charge" p.name),
    group := "port",
    title := some ("<b>" ++ p.name ++ "</b><br>Region: " ++ p.region),
    value := 20 }

/-- Structural commodity→benchmark edge (src/enrich_metadata.py 117). -/
def commodityEdge (b : Benchmark) : Edge :=
  { efrom := b.commodity, eto := b.id, label := none, title := none,
    arrows := none, color := .plain "#f97316", dashes := none, length := none }

/-- Structural benchmark→currency edge (src/enrich_metadata.py 123). -/
def currencyEdge (b : Benchmark) : Edge :=
  { efrom := b.id, eto := b.currency, label := none, title := none,
    arrows := none, color := .plain "#10b981", dashes := none,
    length := some 50 }

/-- State of the benchmark loop of `build_knowledge_graph`: the `nodes` and
`edges` lists plus the `existing_nodes` set (modeled as a list, membership
only). -/
structure GState where
  nodes : List Node
  edges : List Edge
  existing : List String

/-- The body of the benchmark loop for one whitelisted benchmark: append the
benchmark node unconditionally, then the commodity node and edge (node only
if its id is not yet in `existing_nodes`), then the currency node and edge
(likewise). -/
def stepBenchmark (b : Benchmark) (st : GState) : GState :=
  let st1 : GState :=
    { nodes := st.nodes ++ [benchNode b], edges := st.edges,
      existing := st.existing ++ [b.id] }
  let st2 : GState :=
    if b.commodity ∈ st1.existing then st1
    else { st1 with nodes := st1.nodes ++ [commodityNode b.commodity],
                    existing := st1.existing ++ [b.commodity] }
  let st3 : GState := { st2 with edges := st2.edges ++ [commodityEdge b] }
  let st4 : GState :=
    if b.currency ∈ st3.existing then st3
    else { st3 with nodes := st3.nodes ++ [currencyNode b.currency],
                    existing := st3.existing ++ [b.currency] }
  { st4 with edges := st4.edges ++ [currencyEdge b] }

/-- The benchmark loop of `build_knowledge_graph` (src/enrich_metadata.py
100-123): only benchmarks whose id is a `SYMBOL_MAP` key contribute. -/
def addBenchmarkNodes : List Benchmark → GState → GState
  | [], st => st
  | b :: rest, st =>
    if b.id ∈ symbolMapKeys then addBenchmarkNodes rest (stepBenchmark b st)
    else addBenchmarkNodes rest st

/-- The assembled graph. -/
structure Graph where
  nodes : List Node
  edges : List Edge
  deriving DecidableEq

/-- `build_knowledge_graph` of src/enrich_metadata.py: edges start from the
dynamic links, the benchmark loop appends structural edges and nodes, and a
port node is appended for every port whose id is the target of some dynamic
link. -/
def build_knowledge_graph (ports : List Port) (benchmarks : List Benchmark)
    (currencies : List Currency) (dynamic_links : List Edge) : Graph :=
  let st := addBenchmarkNodes benchmarks
    { nodes := [], edges := dynamic_links, existing := [] }
  let linked_port_ids := dynamic_links.map Edge.eto
  let portNodes := ports.filterMap (fun p =>
    if p.id ∈ linked_port_ids then some (portNode p) else none)
  { nodes := st.nodes ++ portNodes, edges := st.edges }

/-- The id set of a graph's nodes. -/
def nodeIds (g : Graph) : List String := g.nodes.map Node.id

/- ================================================================
   Definitions: market history fetcher
   ================================================================ -/

/-- The downloaded close-price table (`yf.download(...)['Close']` with its
index already reformatted by `strftime('%b %d')`): ordered date labels and
one column of optional prices per ticker.  A `none` cell models a NaN. -/
structure RawMarket where
  dates : List String
  columns : List (String × List (Option ℚ))

/-- pandas `fillna(method='ffill')` on one column: each NaN takes the last
preceding value; leading NaNs (no prior observation) remain. -/
def ffill : List (Option ℚ) → Option ℚ → List (Option ℚ)
  | [], _ => []
  | none :: t, last => last :: ffill t last
  | some v :: t, _ => some v :: ffill t (some v)

/-- pandas `.fillna(0)`: every remaining NaN becomes 0. -/
def fillnaZero (col : List (Option ℚ)) : List (Option ℚ) :=
  col.map (fun o => some (o.getD 0))

/-- `round(2)`: round to 2 decimal places.  (pandas rounds ties to even;
no claim depends on tie behavior.) -/
def round2 (q : ℚ) : ℚ := (round (q * 100) : ℤ) / 100

/-- `.round(2)` on one column. -/
def roundCol (col : List (Option ℚ)) : List (Option ℚ) :=
  col.map (Option.map round2)

/-- The per-column cleaning `fillna(method='ffill').fillna(0).round(2)`
of src/enrich_metadata.py 84. -/
def processColumn (col : List (Option ℚ)) : List (Option ℚ) :=
  roundCol (fillnaZero (ffill col none))

/-- `data[yf_ticker]` column access (`yf_ticker in data.columns` guard is the
`isSome` of this). -/
def colLookup (cols : List (String × List (Option ℚ))) (t : String) :
    Option (List (Option ℚ)) :=
  (cols.find? (fun kv => kv.1 == t)).map Prod.snd

/-- The output shape of `fetch_market_data`:
`{"dates": [...], "datasets": {...}}`. -/
structure MarketHistory where
  dates : List String
  datasets : List (String × List (Option ℚ))
  deriving DecidableEq

/-- `fetch_market_data` of src/enrich_metadata.py.  The external
`yf.download` call is an `Except` parameter; the `except` branch of the
`try` returns the empty well-formed result.  Otherwise each `SYMBOL_MAP`
entry whose ticker occurs as a column contributes a cleaned dataset keyed by
the domain id. -/
def fetch_market_data (download : Except String RawMarket) : MarketHistory :=
  match download with
  | .error _ => { dates := [], datasets := [] }
  | .ok data =>
    { dates := data.dates,
      datasets := SYMBOL_MAP.filterMap (fun kv =>
        (colLookup data.columns kv.2).map
          (fun col => (kv.1, processColumn col))) }

/-- A downloaded table is well formed when every column has one cell per date
label (a pandas DataFrame invariant). -/
def wellFormedDownload : Except String RawMarket → Prop
  | .error _ => True
  | .ok d => ∀ kv ∈ d.columns, (kv.2).length = d.dates.length

/- ================================================================
   Definitions: final payload and stage artifact paths
   ================================================================ -/

/-- The final combined payload written to `dashboard_payload.json`. -/
structure Payload where
  ports : List Port
  benchmarks : List Benchmark
  market_data : MarketHistory
  graph : Graph

/-- The `__main__` block of src/enrich_metadata.py after loading the three
processed JSON artifacts: resolve links, fetch market data, build the graph,
and filter the payload's `benchmarks` list by the symbol whitelist. -/
def mainPayload (scorer : String → String → ℚ) (ports : List Port)
    (benchmarks : List Benchmark) (currencies : List Currency)
    (download : Except String RawMarket) : Payload :=
  let dynamic_links := resolve_logistics_links scorer benchmarks ports
  let market_data := fetch_market_data download
  let graph_data := build_knowledge_graph ports benchmarks currencies
    dynamic_links
  { ports := ports,
    benchmarks := benchmarks.filter (fun b => decide (b.id ∈ symbolMapKeys)),
    market_data := market_data,
    graph := graph_data }

/-- `PROC_DIR` (src/enrich_metadata.py 7 and src/generate_dashboard.py 5). -/
def PROC_DIR : String := "data/processed"

/-- `ENRICH_DIR` (src/enrich_metadata.py 8). -/
def ENRICH_DIR : String := "data/enriched"

/-- The artifact the enrichment stage writes:
`os.path.join(ENRICH_DIR, 'dashboard_payload.json')`
(src/enrich_metadata.py 162). -/
def enrichOutputPath : String := ENRICH_DIR ++ "/" ++ "dashboard_payload.json"

/-- The file `generate()` opens:
`os.path.join(PROC_DIR, 'dashboard_data.json')`
(src/generate_dashboard.py 12). -/
def rendererInputPath : String := PROC_DIR ++ "/" ++ "dashboard_data.json"

/-- Every artifact any earlier stage writes: the three processed JSON files
of src/ingest_dunl.py and the enrichment payload. -/
def writtenArtifactPaths : List String :=
  [PROC_DIR ++ "/" ++ "ports.json",
   PROC_DIR ++ "/" ++ "benchmarks.json",
   PROC_DIR ++ "/" ++ "currencies.json",
   enrichOutputPath]

/- ================================================================
   Definitions: the resolver pass under Python dynamic typing (claim C4)
   ================================================================ -/

/-- The exception `text.replace` raises on a non-string receiver
(an `AttributeError` for `None` / NaN-float values). -/
inductive PyExc where
  | attributeError
  deriving DecidableEq

/-- A port record whose `name` may be missing or malformed (`none` models a
non-string value such as `None` or a NaN float). -/
structure PortRaw where
  id : String
  name : Option String
  region : String

/-- A benchmark record whose `description` may be missing or malformed. -/
structure BenchmarkRaw where
  id : String
  symbol : String
  description : Option String
  commodity : String
  currency : String

/-- `clean_text` applied to a possibly-non-string value: its very first
operation `text.replace('.', '')` raises on a non-string. -/
def clean_text_py : Option String → Except PyExc String
  | none => .error .attributeError
  | some s => .ok (clean_text s)

/-- A raw benchmark with its description as a proper string. -/
def toBenchmark (b : BenchmarkRaw) (d : String) : Benchmark :=
  { id := b.id, symbol := b.symbol, description := d,
    commodity := b.commodity, currency := b.currency }

/-- A raw port with its name as a proper string. -/
def toPort (p : PortRaw) (n : String) : Port :=
  { id := p.id, name := n, region := p.region }

/-- The `port_lookup` dict comprehension under dynamic typing: raises at the
first malformed port name. -/
def buildLookupPy : List PortRaw → List (String × String) →
    Except PyExc (List (String × String))
  | [], d => .ok d
  | p :: rest, d =>
    match clean_text_py p.name with
    | .error e => .error e
    | .ok nm => buildLookupPy rest (dictInsert d nm p.id)

/-- The benchmark loop under dynamic typing: raises at the first malformed
description, otherwise appends exactly like the pure loop body. -/
def resolveLoopPy (scorer : String → String → ℚ)
    (lookup : List (String × String)) (names : List String) :
    List BenchmarkRaw → Except PyExc (List Edge)
  | [] => .ok []
  | b :: rest =>
    match b.description with
    | none => .error .attributeError
    | some d =>
      match resolveLoopPy scorer lookup names rest with
      | .error e => .error e
      | .ok ls =>
        .ok ((resolveOne scorer lookup names (toBenchmark b d)).toList ++ ls)

/-- `resolve_logistics_links` under Python dynamic typing. -/
def resolve_links_py (scorer : String → String → ℚ)
    (benchmarks : List BenchmarkRaw) (ports : List PortRaw) :
    Except PyExc (List Edge) :=
  match buildLookupPy ports [] with
  | .error e => .error e
  | .ok lookup => resolveLoopPy scorer lookup (lookup.map Prod.fst) benchmarks

/- ================================================================
   Definitions: concrete sample data for witnesses and counterexamples
   ================================================================ -/

/-- A concrete similarity scorer agreeing with the real scorer on exact
matches: identical strings score 100. -/
def eqScorer (a b : String) : ℚ := if a = b then 100 else 0

def portSIN : Port := { id := "SIN", name := "Singapore", region := "Asia" }

/-- A whitelisted benchmark (`SP500 ∈ SYMBOL_MAP`). -/
def benchSP : Benchmark :=
  { id := "SP500", symbol := "SPX", description := "Singapore",
    commodity := "Equity", currency := "USD" }

/-- A benchmark outside the whitelist whose description matches a port. -/
def benchB1 : Benchmark :=
  { id := "B1", symbol := "GO-SIN", description := "Singapore",
    commodity := "GASOIL", currency := "USD" }

/-- A whitelisted benchmark whose commodity id is itself a whitelist key. -/
def bC5a : Benchmark :=
  { id := "SP500", symbol := "SPX", description := "SnP",
    commodity := "TS01021", currency := "USD" }

/-- A whitelisted benchmark whose own id equals `bC5a`'s commodity id. -/
def bC5b : Benchmark :=
  { id := "TS01021", symbol := "IO", description := "Iron",
    commodity := "IronOre", currency := "USD" }

/-- A port whose id collides with a currency code. -/
def portUSD : Port := { id := "USD", name := "UsdPort", region := "X" }

/-- A concrete dynamic link targeting `portSIN`. -/
def linkSP : Edge := mkLink benchSP "Singapore" "SIN"

/-- A concrete well-formed downloaded table: two dates, one known ticker
column with a leading NaN. -/
def rawOkMarket : RawMarket :=
  { dates := ["Jan 01", "Jan 02"], columns := [("CL=F", [none, some 5])] }

/-- A raw benchmark with a malformed (non-string) description. -/
def rawBadBench : BenchmarkRaw :=
  { id := "B1", symbol := "GO", description := none,
    commodity := "GASOIL", currency := "USD" }

/-- A raw benchmark whose description is a proper string. -/
def rawGoodBench : BenchmarkRaw :=
  { id := "SP500", symbol := "SPX", description := some "Singapore",
    commodity := "Equity", currency := "USD" }

/-- A raw port whose name is a proper string. -/
def rawGoodPort : PortRaw :=
  { id := "SIN", name := some "Singapore", region := "Asia" }

/- ================================================================
   Theorems: string-primitive lemmas and claim C3
   ================================================================ -/

theorem pyReplaceGo_subset (pat : List Char) :
    ∀ (s : List Char) (k : Nat) (c : Char), c ∈ pyReplaceGo pat s k → c ∈ s := by
  intro s
  induction s with
  | nil => intro k c h; simp [pyReplaceGo] at h
  | cons a t ih =>
    intro k c h
    match k with
    | Nat.succ k' =>
      exact List.mem_cons_of_mem a (ih k' c h)
    | 0 =>
      rw [pyReplaceGo] at h
      split at h
      · exact List.mem_cons_of_mem a (ih _ c h)
      · rcases List.mem_cons.mp h with h' | h'
        · exact h' ▸ List.mem_cons_self a t
        · exact List.mem_cons_of_mem a (ih 0 c h')

theorem mem_of_mem_pyReplace {pat s : List Char} {c : Char}
    (h : c ∈ pyReplace pat s) : c ∈ s :=
  pyReplaceGo_subset pat s 0 c h

theorem isPrefixOf_single (ch c : Char) (t : List Char) :
    [ch].isPrefixOf (c :: t) = (ch == c) := by
  simp [List.isPrefixOf]

theorem pyReplace_nil_pat : ∀ s : List Char, pyReplace [] s = s := by
  intro s
  induction s with
  | nil => rfl
  | cons a t ih =>
    show pyReplaceGo [] (a :: t) 0 = a :: t
    rw [pyReplaceGo]
    simp [List.isEmpty]
    exact ih

theorem not_mem_pyReplace_single (ch : Char) :
    ∀ s : List Char, ch ∉ pyReplace [ch] s := by
  intro s
  induction s with
  | nil => simp [pyReplace, pyReplaceGo]
  | cons a t ih =>
    show ch ∉ pyReplaceGo [ch] (a :: t) 0
    rw [pyReplaceGo]
    by_cases hac : ch = a
    · have hcond : ([ch].isPrefixOf (a :: t) && !(List.isEmpty [ch])) = true := by
        rw [isPrefixOf_single]; simp [hac, List.isEmpty]
      rw [hcond, if_pos rfl]
      exact ih
    · have hcond : ([ch].isPrefixOf (a :: t) && !(List.isEmpty [ch])) = false := by
        rw [isPrefixOf_single]; simp [hac]
      rw [hcond]
      simp only [Bool.false_eq_true, if_false]
      intro h
      rcases List.mem_cons.mp h with h | h
      exacts [hac h, ih h]

theorem hasSub_single_eq_false {ch : Char} :
    ∀ {s : List Char}, ch ∉ s → hasSub [ch] s = false := by
  intro s
  induction s with
  | nil => intro _; simp [hasSub]
  | cons a t ih =>
    intro h
    rw [hasSub, isPrefixOf_single]
    have h1 : ch ≠ a := fun hh => h (hh ▸ List.mem_cons_self a t)
    have h2 : ch ∉ t := fun hh => h (List.mem_cons_of_mem a hh)
    simp [h1, ih h2]

theorem hasSub_cons_prefix {pat c t} (h : pat.isPrefixOf (c :: t) = true) :
    hasSub pat (c :: t) = true := by
  rw [hasSub, h, Bool.true_or]

theorem pyReplaceGo_id_of_not_hasSub {pat : List Char} :
    ∀ s : List Char, hasSub pat s = false → pyReplaceGo pat s 0 = s := by
  intro s
  induction s with
  | nil => intro _; rfl
  | cons a t ih =>
    intro h
    rw [hasSub, Bool.or_eq_false_iff] at h
    rw [pyReplaceGo, h.1]
    simp
    exact ih h.2

theorem pyReplace_id_of_not_hasSub {pat s : List Char}
    (h : hasSub pat s = false) : pyReplace pat s = s :=
  pyReplaceGo_id_of_not_hasSub s h

theorem dropWhile_head_false {p : Char → Bool} :
    ∀ {l : List Char} {c : Char} {t : List Char},
      l.dropWhile p = c :: t → p c = false := by
  intro l
  induction l with
  | nil => intro c t h; simp at h
  | cons a l' ih =>
    intro c t h
    rw [List.dropWhile_cons] at h
    split at h
    · exact ih h
    · rename_i hpa
      cases h
      exact Bool.of_not_eq_true hpa

theorem dropWhile_eq_self_of_head {p : Char → Bool} {l : List Char}
    (h : ∀ c t, l = c :: t → p c = false) : l.dropWhile p = l := by
  cases l with
  | nil => rfl
  | cons a t => rw [List.dropWhile_cons, h a t rfl]; simp

theorem stripL_subset {c : Char} {l : List Char} (h : c ∈ stripL l) : c ∈ l := by
  unfold stripL at h
  rw [List.mem_reverse] at h
  have h1 := (List.takeWhile_append_dropWhile (p := pyIsSpace)
    (l := (l.dropWhile pyIsSpace).reverse)) ▸ List.mem_append_right _ h
  rw [List.mem_reverse] at h1
  have h2 := (List.takeWhile_append_dropWhile (p := pyIsSpace) (l := l)) ▸
    List.mem_append_right _ h1
  exact h2

theorem stripL_idem : ∀ s : List Char, stripL (stripL s) = stripL s := by
  intro s
  set A := s.dropWhile pyIsSpace with hA
  set B := A.reverse.dropWhile pyIsSpace with hB
  have hs : stripL s = B.reverse := rfl
  cases hBe : B with
  | nil => rw [hs, hBe]; rfl
  | cons c t =>
    have hc : pyIsSpace c = false := by
      apply dropWhile_head_false (p := pyIsSpace) (l := A.reverse)
      rw [← hB]; exact hBe
    -- B.reverse is a prefix of A, hence its head (if any) is A's head
    set R := (A.reverse.takeWhile pyIsSpace).reverse with hR
    have hsplit : B.reverse ++ R = A := by
      rw [hR, ← List.reverse_append, hB, List.takeWhile_append_dropWhile,
        List.reverse_reverse]
    have hhead : ∀ d t', B.reverse = d :: t' → pyIsSpace d = false := by
      intro d t' hd
      have hAd : A = d :: (t' ++ R) := by rw [← hsplit, hd]; rfl
      apply dropWhile_head_false (p := pyIsSpace) (l := s)
      rw [← hA]; exact hAd
    show stripL B.reverse = B.reverse
    unfold stripL
    rw [dropWhile_eq_self_of_head hhead, List.reverse_reverse,
      dropWhile_eq_self_of_head (by intro d t' hd; rw [hBe] at hd; cases hd; exact hc),
      hBe]

theorem dot_not_mem_foldl (ws : List (List Char)) :
    ∀ r : List Char, ('.' : Char) ∉ r →
      ('.' : Char) ∉ ws.foldl (fun t w => pyReplace w t) r := by
  induction ws with
  | nil => intro r h; exact h
  | cons w ws' ih =>
    intro r h
    exact ih _ (fun hc => h (mem_of_mem_pyReplace hc))

theorem dot_not_mem_cleanTextL (s : List Char) : ('.' : Char) ∉ cleanTextL s := by
  intro h
  have h1 := stripL_subset h
  have h2 := dot_not_mem_foldl (noise_words.map String.data) (pyReplace ['.'] s)
    (not_mem_pyReplace_single '.' s)
  exact h2 h1

theorem foldl_pyReplace_id {r : List Char} :
    ∀ ws : List (List Char), (∀ w ∈ ws, w ≠ [] → hasSub w r = false) →
      ws.foldl (fun t w => pyReplace w t) r = r := by
  intro ws
  induction ws with
  | nil => intro _; rfl
  | cons w ws' ih =>
    intro h
    have hw : pyReplace w r = r := by
      by_cases hn : w = []
      · subst hn; exact pyReplace_nil_pat r
      · exact pyReplace_id_of_not_hasSub (h w (List.mem_cons_self _ _) hn)
    rw [List.foldl_cons, hw]
    exact ih (fun w' hw' => h w' (List.mem_cons_of_mem _ hw'))

theorem cleanTextL_fixed {r : List Char}
    (hdot : ('.' : Char) ∉ r)
    (hw : ∀ w ∈ noise_words.map String.data, w ≠ [] → hasSub w r = false)
    (hstrip : ∃ x, r = stripL x) : cleanTextL r = r := by
  obtain ⟨x, hx⟩ := hstrip
  unfold cleanTextL
  rw [pyReplace_id_of_not_hasSub (hasSub_single_eq_false hdot),
    foldl_pyReplace_id _ hw, hx, stripL_idem]

/-- C3 counterexample: `clean_text` is not idempotent.  On input "FFOBOB",
removing the noise word "FOB" glues the remaining characters into a fresh
occurrence of "FOB", which only a second pass removes. -/
theorem c3_counterexample :
    clean_text (clean_text "FFOBOB") ≠ clean_text "FFOBOB" := by decide

/-- C3 amended: `clean_text` is idempotent on every string whose cleaned form
contains no noise word as a substring (noise-word removal can splice together
a new noise-word occurrence; when it does not, a second application is the
identity). -/
theorem c3_amended (s : String)
    (h : noise_words.all
      (fun w => !(hasSub w.data (clean_text s).data)) = true) :
    clean_text (clean_text s) = clean_text s := by
  have hlist : cleanTextL (cleanTextL s.data) = cleanTextL s.data := by
    apply cleanTextL_fixed (dot_not_mem_cleanTextL s.data)
    · intro w hwmem _
      rw [List.mem_map] at hwmem
      obtain ⟨wstr, hmem, hdata⟩ := hwmem
      rw [List.all_eq_true] at h
      have := h wstr hmem
      rw [Bool.not_eq_eq_eq_not, Bool.not_true] at this
      exact hdata ▸ this
    · exact ⟨_, rfl⟩
  show (⟨cleanTextL (cleanTextL s.data)⟩ : String) = ⟨cleanTextL s.data⟩
  rw [hlist]

/-- C3 witness: a realistic benchmark description whose cleaned form is
noise-free, on which idempotence therefore holds. -/
theorem c3_witness :
    noise_words.all
      (fun w => !(hasSub w.data (clean_text "Gasoil FOB Spore Cargo").data)) = true
    ∧ clean_text (clean_text "Gasoil FOB Spore Cargo")
        = clean_text "Gasoil FOB Spore Cargo" :=
  ⟨by decide, c3_amended _ (by decide)⟩

/- ================================================================
   Theorems: extractOne and dict lemmas, claim C1
   ================================================================ -/

theorem extract_fold_spec (scorer : String → String → ℚ) (query : String) :
    ∀ (choices : List String) (x : String),
      ∃ c, choices.foldl (extractStep scorer query) (some (x, scorer query x))
            = some (c, scorer query c)
        ∧ c ∈ x :: choices
        ∧ ∀ y ∈ x :: choices, scorer query y ≤ scorer query c := by
  intro choices
  induction choices with
  | nil =>
    intro x
    refine ⟨x, rfl, List.mem_cons_self x [], ?_⟩
    intro y hy
    have hyx : y = x := by simpa using hy
    rw [hyx]
  | cons a t ih =>
    intro x
    rw [List.foldl_cons]
    by_cases hlt : scorer query x < scorer query a
    · have hstep : extractStep scorer query (some (x, scorer query x)) a
          = some (a, scorer query a) := by simp [extractStep, hlt]
      rw [hstep]
      obtain ⟨c, hc, hmem, hbound⟩ := ih a
      refine ⟨c, hc, ?_, ?_⟩
      · rcases List.mem_cons.mp hmem with h | h
        · rw [h]; exact List.mem_cons_of_mem x (List.mem_cons_self a t)
        · exact List.mem_cons_of_mem x (List.mem_cons_of_mem a h)
      · intro y hy
        rcases List.mem_cons.mp hy with h | h
        · rw [h]
          exact le_trans (le_of_lt hlt) (hbound a (List.mem_cons_self a t))
        · rcases List.mem_cons.mp h with h' | h'
          · rw [h']; exact hbound a (List.mem_cons_self a t)
          · exact hbound y (List.mem_cons_of_mem a h')
    · have hstep : extractStep scorer query (some (x, scorer query x)) a
          = some (x, scorer query x) := by simp [extractStep, hlt]
      rw [hstep]
      obtain ⟨c, hc, hmem, hbound⟩ := ih x
      refine ⟨c, hc, ?_, ?_⟩
      · rcases List.mem_cons.mp hmem with h | h
        · rw [h]; exact List.mem_cons_self x (a :: t)
        · exact List.mem_cons_of_mem x (List.mem_cons_of_mem a h)
      · intro y hy
        rcases List.mem_cons.mp hy with h | h
        · rw [h]; exact hbound x (List.mem_cons_self x t)
        · rcases List.mem_cons.mp h with h' | h'
          · rw [h']
            exact le_trans (le_of_not_lt hlt) (hbound x (List.mem_cons_self x t))
          · exact hbound y (List.mem_cons_of_mem x h')

theorem extractOne_spec (scorer : String → String → ℚ) (query : String)
    {choices : List String} (h : choices ≠ []) :
    ∃ c, extractOne scorer query choices = some (c, scorer query c)
      ∧ c ∈ choices ∧ ∀ y ∈ choices, scorer query y ≤ scorer query c := by
  match choices with
  | [] => exact absurd rfl h
  | x :: t =>
    obtain ⟨c, hc, hmem, hbound⟩ := extract_fold_spec scorer query t x
    exact ⟨c, hc, hmem, hbound⟩

theorem extractOne_nil (scorer : String → String → ℚ) (query : String) :
    extractOne scorer query [] = none := rfl

theorem le_foldl_max : ∀ (t : List ℚ) (x : ℚ), x ≤ t.foldl max x := by
  intro t
  induction t with
  | nil => intro x; exact le_refl x
  | cons y t ih =>
    intro x
    exact le_trans (le_max_left x y) (ih (max x y))

theorem mem_le_foldl_max : ∀ (t : List ℚ) (x y : ℚ), y ∈ t → y ≤ t.foldl max x := by
  intro t
  induction t with
  | nil => intro x y hy; simp at hy
  | cons a t ih =>
    intro x y hy
    rw [List.foldl_cons]
    rcases List.mem_cons.mp hy with h | h
    · rw [h]; exact le_trans (le_max_right x a) (le_foldl_max t (max x a))
    · exact ih (max x a) y h

theorem foldl_max_mem : ∀ (t : List ℚ) (x : ℚ), t.foldl max x ∈ x :: t := by
  intro t
  induction t with
  | nil => intro x; exact List.mem_cons_self x []
  | cons a t ih =>
    intro x
    rw [List.foldl_cons]
    rcases List.mem_cons.mp (ih (max x a)) with h | h
    · rw [h]
      rcases max_choice x a with h' | h'
      · rw [h']; exact List.mem_cons_self x (a :: t)
      · rw [h']; exact List.mem_cons_of_mem x (List.mem_cons_self a t)
    · exact List.mem_cons_of_mem x (List.mem_cons_of_mem a h)

theorem listMaxQ_eq_some_iff {l : List ℚ} {m : ℚ} :
    listMaxQ l = some m ↔ m ∈ l ∧ ∀ x ∈ l, x ≤ m := by
  match l with
  | [] => simp [listMaxQ]
  | x :: t =>
    rw [listMaxQ, Option.some_inj]
    constructor
    · intro h
      subst h
      refine ⟨foldl_max_mem t x, ?_⟩
      intro y hy
      rcases List.mem_cons.mp hy with h' | h'
      · rw [h']; exact le_foldl_max t x
      · exact mem_le_foldl_max t x y h'
    · intro ⟨hm, hb⟩
      apply le_antisymm
      · exact hb _ (foldl_max_mem t x)
      · rcases List.mem_cons.mp hm with h' | h'
        · rw [h']; exact le_foldl_max t x
        · exact mem_le_foldl_max t x m h'

theorem mem_keys_dictInsert {d : List (String × String)} {k v k' : String} :
    k' ∈ (dictInsert d k v).map Prod.fst
      ↔ k' ∈ d.map Prod.fst ∨ k' = k := by
  unfold dictInsert
  by_cases ha : d.any (fun kv => kv.1 == k) = true
  · rw [if_pos ha]
    have hmap : (d.map (fun kv => if kv.1 == k then (kv.1, v) else kv)).map
        Prod.fst = d.map Prod.fst := by
      rw [List.map_map]
      apply List.map_congr_left
      intro kv _
      simp only [Function.comp_apply]
      split <;> rfl
    rw [hmap]
    constructor
    · exact Or.inl
    · intro h
      rcases h with h | h
      · exact h
      · obtain ⟨kv, hkv, hbeq⟩ := List.any_eq_true.mp ha
        rw [h]
        exact List.mem_map.mpr ⟨kv, hkv, eq_of_beq hbeq⟩
  · rw [if_neg ha, List.map_append]
    simp

theorem mem_keys_portFold {k : String} :
    ∀ (ps : List Port) (d : List (String × String)),
      k ∈ (ps.foldl (fun d p => dictInsert d (clean_text p.name) p.id) d).map
          Prod.fst
        ↔ k ∈ d.map Prod.fst ∨ ∃ p ∈ ps, clean_text p.name = k := by
  intro ps
  induction ps with
  | nil => intro d; simp
  | cons p t ih =>
    intro d
    rw [List.foldl_cons, ih, mem_keys_dictInsert]
    constructor
    · rintro ((h | h) | ⟨p', hp', hcl⟩)
      · exact Or.inl h
      · exact Or.inr ⟨p, List.mem_cons_self p t, h.symm⟩
      · exact Or.inr ⟨p', List.mem_cons_of_mem p hp', hcl⟩
    · rintro (h | ⟨p', hp', hcl⟩)
      · exact Or.inl (Or.inl h)
      · rcases List.mem_cons.mp hp' with h' | h'
        · exact Or.inl (Or.inr (h' ▸ hcl.symm))
        · exact Or.inr ⟨p', h', hcl⟩

theorem mem_portNamesOf {ports : List Port} {k : String} :
    k ∈ portNamesOf ports ↔ ∃ p ∈ ports, clean_text p.name = k := by
  unfold portNamesOf portLookup
  rw [mem_keys_portFold]
  simp

theorem dictLookup_isSome_of_mem_keys {d : List (String × String)} {k : String}
    (h : k ∈ d.map Prod.fst) : ∃ v, dictLookup d k = some v := by
  obtain ⟨kv, hkv, hfst⟩ := List.mem_map.mp h
  have : (d.find? (fun kv => kv.1 == k)).isSome = true :=
    List.find?_isSome.mpr ⟨kv, hkv, beq_iff_eq.mpr hfst⟩
  obtain ⟨kv', hkv'⟩ := Option.isSome_iff_exists.mp this
  exact ⟨kv'.2, by rw [dictLookup, hkv']; rfl⟩

theorem values_dictInsert {d : List (String × String)} {k v v' : String}
    (h : v' ∈ (dictInsert d k v).map Prod.snd) :
    v' ∈ d.map Prod.snd ∨ v' = v := by
  unfold dictInsert at h
  by_cases ha : d.any (fun kv => kv.1 == k) = true
  · rw [if_pos ha, List.map_map] at h
    obtain ⟨kv, hkv, hv⟩ := List.mem_map.mp h
    simp only [Function.comp_apply] at hv
    by_cases hk : (kv.1 == k) = true
    · rw [if_pos hk] at hv
      exact Or.inr hv.symm
    · rw [if_neg hk] at hv
      exact Or.inl (List.mem_map.mpr ⟨kv, hkv, hv⟩)
  · rw [if_neg ha, List.map_append] at h
    rcases List.mem_append.mp h with h | h
    · exact Or.inl h
    · simp at h
      exact Or.inr h

theorem values_portFold {v : String} :
    ∀ (ps : List Port) (d : List (String × String)),
      v ∈ ((ps.foldl (fun d p => dictInsert d (clean_text p.name) p.id) d).map
          Prod.snd)
        → v ∈ d.map Prod.snd ∨ ∃ p ∈ ps, p.id = v := by
  intro ps
  induction ps with
  | nil => intro d h; exact Or.inl h
  | cons p t ih =>
    intro d h
    rw [List.foldl_cons] at h
    rcases ih _ h with h' | ⟨p', hp', hid⟩
    · rcases values_dictInsert h' with h'' | h''
      · exact Or.inl h''
      · exact Or.inr ⟨p, List.mem_cons_self p t, h''.symm⟩
    · exact Or.inr ⟨p', List.mem_cons_of_mem p hp', hid⟩

theorem dictLookup_mem_values {d : List (String × String)} {k v : String}
    (h : dictLookup d k = some v) : v ∈ d.map Prod.snd := by
  unfold dictLookup at h
  cases hf : d.find? (fun kv => kv.1 == k) with
  | none => rw [hf] at h; cases h
  | some kv =>
    rw [hf] at h
    cases h
    exact List.mem_map.mpr ⟨kv, List.mem_of_find?_eq_some hf, rfl⟩

theorem portLookup_value {ports : List Port} {k v : String}
    (h : dictLookup (portLookup ports) k = some v) : ∃ p ∈ ports, p.id = v := by
  have := values_portFold ports [] (dictLookup_mem_values h)
  simpa using this

theorem resolveOne_isSome_iff (scorer : String → String → ℚ)
    (ports : List Port) (b : Benchmark) :
    (resolveOne scorer (portLookup ports) (portNamesOf ports) b).isSome = true
      ↔ ∃ m, bestScore scorer ports b = some m ∧ 80 < m := by
  by_cases hp : portNamesOf ports = []
  · have hports : ports = [] := by
      cases hports : ports with
      | nil => rfl
      | cons p t =>
        exfalso
        have : clean_text p.name ∈ portNamesOf ports :=
          mem_portNamesOf.mpr ⟨p, hports ▸ List.mem_cons_self p t, rfl⟩
        rw [hp] at this
        simp at this
    rw [resolveOne, hp, extractOne_nil]
    subst hports
    simp [bestScore, listMaxQ]
  · obtain ⟨c, hc, hmem, hbound⟩ :=
      extractOne_spec scorer (clean_text b.description) hp
    set q := clean_text b.description with hq
    have hbest : bestScore scorer ports b = some (scorer q c) := by
      rw [bestScore, listMaxQ_eq_some_iff]
      constructor
      · obtain ⟨p, hpmem, hcl⟩ := mem_portNamesOf.mp hmem
        exact List.mem_map.mpr ⟨p, hpmem, by rw [hcl]⟩
      · intro x hx
        obtain ⟨p, hpmem, hxeq⟩ := List.mem_map.mp hx
        have : clean_text p.name ∈ portNamesOf ports :=
          mem_portNamesOf.mpr ⟨p, hpmem, rfl⟩
        exact hxeq ▸ hbound _ this
    rw [resolveOne, ← hq, hc]
    dsimp only
    constructor
    · intro h
      by_cases hlt : (80 : ℚ) < scorer q c
      · exact ⟨scorer q c, hbest, hlt⟩
      · rw [if_neg hlt] at h
        simp at h
    · rintro ⟨m, hm, hlt⟩
      rw [hbest, Option.some_inj] at hm
      rw [if_pos (hm ▸ hlt)]
      obtain ⟨v, hv⟩ := dictLookup_isSome_of_mem_keys (d := portLookup ports) hmem
      rw [hv]
      rfl

theorem resolveOne_efrom {scorer : String → String → ℚ}
    {lookup : List (String × String)} {names : List String} {b : Benchmark}
    {l : Edge} (h : resolveOne scorer lookup names b = some l) :
    l.efrom = b.id := by
  unfold resolveOne at h
  cases hx : extractOne scorer (clean_text b.description) names with
  | none => rw [hx] at h; cases h
  | some cs =>
    rw [hx] at h
    obtain ⟨c, s⟩ := cs
    dsimp only at h
    by_cases hlt : (80 : ℚ) < s
    · rw [if_pos hlt] at h
      cases hl : dictLookup lookup c with
      | none => rw [hl] at h; cases h
      | some pid =>
        rw [hl] at h
        dsimp only at h
        cases h
        rfl
    · rw [if_neg hlt] at h
      cases h

theorem resolveOne_eto {scorer : String → String → ℚ}
    {lookup : List (String × String)} {names : List String} {b : Benchmark}
    {l : Edge} (h : resolveOne scorer lookup names b = some l) :
    ∃ k, dictLookup lookup k = some l.eto := by
  unfold resolveOne at h
  cases hx : extractOne scorer (clean_text b.description) names with
  | none => rw [hx] at h; cases h
  | some cs =>
    rw [hx] at h
    obtain ⟨c, s⟩ := cs
    dsimp only at h
    by_cases hlt : (80 : ℚ) < s
    · rw [if_pos hlt] at h
      cases hl : dictLookup lookup c with
      | none => rw [hl] at h; cases h
      | some pid =>
        rw [hl] at h
        dsimp only at h
        cases h
        exact ⟨c, hl⟩
    · rw [if_neg hlt] at h
      cases h

theorem filterMap_count_le {f : Benchmark → Option Edge}
    (hf : ∀ b l, f b = some l → l.efrom = b.id) (i : String) :
    ∀ bs : List Benchmark,
      ((bs.filterMap f).filter (fun l => l.efrom == i)).length
        ≤ (bs.filter (fun b => b.id == i)).length := by
  intro bs
  induction bs with
  | nil => simp
  | cons b t ih =>
    rw [List.filterMap_cons, List.filter_cons]
    cases hfb : f b with
    | none =>
      by_cases hb : (b.id == i) = true <;> simp [hb] <;> omega
    | some l =>
      rw [List.filter_cons]
      have hfrom : l.efrom = b.id := hf b l hfb
      by_cases hb : (b.id == i) = true
      · by_cases hl : (l.efrom == i) = true <;> simp [hb, hl] <;> omega
      · have hl : (l.efrom == i) = false := by
          rw [hfrom]
          exact Bool.of_not_eq_true hb ▸ rfl
        simp [hb, hl]
        exact ih

/-- C1: `resolve_logistics_links` is one `filterMap` pass over the benchmarks
(so at most one link per benchmark entry: for every id, the number of links
with that source is at most the number of benchmarks with that id), the loop
body emits a link for a benchmark iff the highest similarity score of its
cleaned description against the cleaned port names strictly exceeds 80 (a
best score of exactly 80 yields none), and every emitted link's source is the
benchmark's id. -/
theorem c1_resolver_threshold (scorer : String → String → ℚ)
    (bs : List Benchmark) (ps : List Port) :
    resolve_logistics_links scorer bs ps
        = bs.filterMap (resolveOne scorer (portLookup ps) (portNamesOf ps))
    ∧ (∀ i : String,
        ((resolve_logistics_links scorer bs ps).filter
            (fun l => l.efrom == i)).length
          ≤ (bs.filter (fun b => b.id == i)).length)
    ∧ (∀ b : Benchmark,
        (resolveOne scorer (portLookup ps) (portNamesOf ps) b).isSome = true
          ↔ ∃ m, bestScore scorer ps b = some m ∧ 80 < m)
    ∧ (∀ b l, resolveOne scorer (portLookup ps) (portNamesOf ps) b = some l →
        l.efrom = b.id) := by
  refine ⟨rfl, ?_, ?_, ?_⟩
  · intro i
    exact filterMap_count_le (fun b l h => resolveOne_efrom h) i bs
  · intro b
    exact resolveOne_isSome_iff scorer ps b
  · intro b l h
    exact resolveOne_efrom h

/-- C1 witness: on a concrete run the loop body emits a link for `benchSP`
(exact match scores 100 > 80) and, by the theorem, its source is the
benchmark's id. -/
theorem c1_witness :
    resolveOne eqScorer (portLookup [portSIN]) (portNamesOf [portSIN]) benchSP
        = some (mkLink benchSP "Singapore" "SIN")
    ∧ (mkLink benchSP "Singapore" "SIN").efrom = benchSP.id :=
  ⟨by decide,
   (c1_resolver_threshold eqScorer [benchSP] [portSIN]).2.2.2 benchSP
     (mkLink benchSP "Singapore" "SIN") (by decide)⟩

/- ================================================================
   Theorems: benchmark-loop lemmas
   ================================================================ -/

theorem stepBenchmark_edges (b : Benchmark) (st : GState) :
    (stepBenchmark b st).edges = st.edges ++ [commodityEdge b, currencyEdge b] := by
  unfold stepBenchmark
  dsimp only
  split <;> split <;> simp

theorem stepBenchmark_nodes_ids (b : Benchmark) (st : GState)
    (h : st.nodes.map Node.id = st.existing) :
    (stepBenchmark b st).nodes.map Node.id = (stepBenchmark b st).existing := by
  unfold stepBenchmark
  dsimp only
  split <;> split <;> simp [benchNode, commodityNode, currencyNode, h]

theorem stepBenchmark_existing_mono (b : Benchmark) (st : GState) :
    ∀ x ∈ st.existing, x ∈ (stepBenchmark b st).existing := by
  unfold stepBenchmark
  dsimp only
  split <;> split <;> intro x hx <;> simp [hx]

theorem stepBenchmark_mem_existing (b : Benchmark) (st : GState) :
    b.id ∈ (stepBenchmark b st).existing
    ∧ b.commodity ∈ (stepBenchmark b st).existing
    ∧ b.currency ∈ (stepBenchmark b st).existing := by
  unfold stepBenchmark
  dsimp only
  by_cases h2 : b.commodity ∈ st.existing ++ [b.id]
  · rw [if_pos h2]
    by_cases h4 : b.currency ∈ st.existing ++ [b.id]
    · rw [if_pos h4]
      exact ⟨by simp, h2, h4⟩
    · rw [if_neg h4]
      exact ⟨by simp, List.mem_append_left _ h2, by simp⟩
  · rw [if_neg h2]
    by_cases h4 : b.currency ∈ (st.existing ++ [b.id]) ++ [b.commodity]
    · rw [if_pos h4]
      exact ⟨by simp, by simp, h4⟩
    · rw [if_neg h4]
      exact ⟨by simp, by simp, by simp⟩

theorem stepBenchmark_existing_decomp (b : Benchmark) (st : GState) :
    ∀ x ∈ (stepBenchmark b st).existing,
      x ∈ st.existing ∨ x = b.id ∨ x = b.commodity ∨ x = b.currency := by
  unfold stepBenchmark
  dsimp only
  split <;> split <;> intro x hx <;> simp at hx <;> tauto

theorem nodupSnoc {l : List String} {a : String} (hn : l.Nodup) (ha : a ∉ l) :
    (l ++ [a]).Nodup := by
  rw [List.nodup_append]
  exact ⟨hn, List.nodup_singleton a, by simpa [List.disjoint_singleton] using ha⟩

theorem stepBenchmark_existing_nodup (b : Benchmark) (st : GState)
    (hn : st.existing.Nodup) (hb : b.id ∉ st.existing) :
    (stepBenchmark b st).existing.Nodup := by
  unfold stepBenchmark
  dsimp only
  have h1 : (st.existing ++ [b.id]).Nodup := nodupSnoc hn hb
  by_cases h2 : b.commodity ∈ st.existing ++ [b.id]
  · rw [if_pos h2]
    by_cases h4 : b.currency ∈ st.existing ++ [b.id]
    · rw [if_pos h4]; exact h1
    · rw [if_neg h4]; exact nodupSnoc h1 h4
  · rw [if_neg h2]
    by_cases h4 : b.currency ∈ (st.existing ++ [b.id]) ++ [b.commodity]
    · rw [if_pos h4]; exact nodupSnoc h1 h2
    · rw [if_neg h4]; exact nodupSnoc (nodupSnoc h1 h2) h4

theorem stepBenchmark_nodes_decomp (b : Benchmark) (st : GState) :
    ∀ n ∈ (stepBenchmark b st).nodes,
      n ∈ st.nodes ∨ n = benchNode b ∨ n = commodityNode b.commodity
        ∨ n = currencyNode b.currency := by
  unfold stepBenchmark
  dsimp only
  split <;> split <;> intro n hn <;>
    simp only [List.mem_append, List.mem_singleton] at hn <;> tauto

theorem abn_nodes_ids : ∀ (bs : List Benchmark) (st : GState),
    st.nodes.map Node.id = st.existing →
      (addBenchmarkNodes bs st).nodes.map Node.id
        = (addBenchmarkNodes bs st).existing := by
  intro bs
  induction bs with
  | nil => intro st h; exact h
  | cons b rest ih =>
    intro st h
    rw [addBenchmarkNodes]
    split
    · exact ih _ (stepBenchmark_nodes_ids b st h)
    · exact ih _ h

theorem abn_existing_mono : ∀ (bs : List Benchmark) (st : GState) (x : String),
    x ∈ st.existing → x ∈ (addBenchmarkNodes bs st).existing := by
  intro bs
  induction bs with
  | nil => intro st x hx; exact hx
  | cons b rest ih =>
    intro st x hx
    rw [addBenchmarkNodes]
    split
    · exact ih _ x (stepBenchmark_existing_mono b st x hx)
    · exact ih _ x hx

theorem abn_edges_decomp : ∀ (bs : List Benchmark) (st : GState) (e : Edge),
    e ∈ (addBenchmarkNodes bs st).edges →
      e ∈ st.edges ∨ ∃ b ∈ bs, b.id ∈ symbolMapKeys
        ∧ (e = commodityEdge b ∨ e = currencyEdge b) := by
  intro bs
  induction bs with
  | nil => intro st e he; exact Or.inl he
  | cons b rest ih =>
    intro st e he
    rw [addBenchmarkNodes] at he
    split at he
    · rename_i hkey
      rcases ih _ e he with h | ⟨b', hb', hk', hs'⟩
      · rw [stepBenchmark_edges] at h
        rcases List.mem_append.mp h with h | h
        · exact Or.inl h
        · simp at h
          exact Or.inr ⟨b, List.mem_cons_self b rest, hkey, h⟩
      · exact Or.inr ⟨b', List.mem_cons_of_mem b hb', hk', hs'⟩
    · rcases ih _ e he with h | ⟨b', hb', hk', hs'⟩
      · exact Or.inl h
      · exact Or.inr ⟨b', List.mem_cons_of_mem b hb', hk', hs'⟩

theorem abn_mem_existing : ∀ (bs : List Benchmark) (st : GState) (b : Benchmark),
    b ∈ bs → b.id ∈ symbolMapKeys →
      b.id ∈ (addBenchmarkNodes bs st).existing
      ∧ b.commodity ∈ (addBenchmarkNodes bs st).existing
      ∧ b.currency ∈ (addBenchmarkNodes bs st).existing := by
  intro bs
  induction bs with
  | nil => intro st b hb; simp at hb
  | cons b' rest ih =>
    intro st b hb hkey
    rcases List.mem_cons.mp hb with h | h
    · subst h
      rw [addBenchmarkNodes, if_pos hkey]
      obtain ⟨e1, e2, e3⟩ := stepBenchmark_mem_existing b st
      exact ⟨abn_existing_mono rest _ _ e1, abn_existing_mono rest _ _ e2,
        abn_existing_mono rest _ _ e3⟩
    · rw [addBenchmarkNodes]
      split
      · exact ih _ b h hkey
      · exact ih _ b h hkey

theorem abn_existing_decomp : ∀ (bs : List Benchmark) (st : GState) (x : String),
    x ∈ (addBenchmarkNodes bs st).existing →
      x ∈ st.existing ∨ ∃ b ∈ bs, b.id ∈ symbolMapKeys
        ∧ (x = b.id ∨ x = b.commodity ∨ x = b.currency) := by
  intro bs
  induction bs with
  | nil => intro st x hx; exact Or.inl hx
  | cons b rest ih =>
    intro st x hx
    rw [addBenchmarkNodes] at hx
    split at hx
    · rename_i hkey
      rcases ih _ x hx with h | ⟨b', hb', hk', hs'⟩
      · rcases stepBenchmark_existing_decomp b st x h with h' | h'
        · exact Or.inl h'
        · exact Or.inr ⟨b, List.mem_cons_self b rest, hkey, h'⟩
      · exact Or.inr ⟨b', List.mem_cons_of_mem b hb', hk', hs'⟩
    · rcases ih _ x hx with h | ⟨b', hb', hk', hs'⟩
      · exact Or.inl h
      · exact Or.inr ⟨b', List.mem_cons_of_mem b hb', hk', hs'⟩

theorem abn_nodes_decomp : ∀ (bs : List Benchmark) (st : GState) (n : Node),
    n ∈ (addBenchmarkNodes bs st).nodes →
      n ∈ st.nodes ∨ n.group = "benchmark" ∨ n.group = "commodity"
        ∨ n.group = "currency" := by
  intro bs
  induction bs with
  | nil => intro st n hn; exact Or.inl hn
  | cons b rest ih =>
    intro st n hn
    rw [addBenchmarkNodes] at hn
    split at hn
    · rcases ih _ n hn with h | h
      · rcases stepBenchmark_nodes_decomp b st n h with h' | h' | h' | h'
        · exact Or.inl h'
        · rw [h']; exact Or.inr (Or.inl rfl)
        · rw [h']; exact Or.inr (Or.inr (Or.inl rfl))
        · rw [h']; exact Or.inr (Or.inr (Or.inr rfl))
      · exact Or.inr h
    · exact ih _ n hn

/- ================================================================
   Theorems: claim C2
   ================================================================ -/

/-- C2 counterexample: with one non-whitelisted benchmark whose description
exactly matches the single port, the resolver emits a link, but the benchmark
loop adds no node for its id, so the link's `from` endpoint dangles. -/
theorem c2_counterexample :
    (build_knowledge_graph [portSIN] [benchB1] []
        (resolve_logistics_links eqScorer [benchB1] [portSIN])).edges.all
      (fun e => (nodeIds (build_knowledge_graph [portSIN] [benchB1] []
        (resolve_logistics_links eqScorer [benchB1] [portSIN]))).contains
          e.efrom) = false := by decide

/-- C2 amended: in the combined run of `resolve_logistics_links` and
`build_knowledge_graph`, no edge dangles, provided every benchmark for which
the resolver's loop body emits a link has its id in the symbol whitelist
(the code violates the unconditional claim: a dynamic link from a
non-whitelisted benchmark has no node for its `from` endpoint). -/
theorem c2_amended (scorer : String → String → ℚ) (ps : List Port)
    (bs : List Benchmark) (cs : List Currency)
    (H : ∀ b ∈ bs,
      (resolveOne scorer (portLookup ps) (portNamesOf ps) b).isSome = true →
        b.id ∈ symbolMapKeys) :
    ∀ e ∈ (build_knowledge_graph ps bs cs
        (resolve_logistics_links scorer bs ps)).edges,
      e.efrom ∈ nodeIds (build_knowledge_graph ps bs cs
        (resolve_logistics_links scorer bs ps))
      ∧ e.eto ∈ nodeIds (build_knowledge_graph ps bs cs
        (resolve_logistics_links scorer bs ps)) := by
  intro e he
  set links := resolve_logistics_links scorer bs ps with hlinks
  set st0 : GState := { nodes := [], edges := links, existing := [] } with hst0
  have hedges : (build_knowledge_graph ps bs cs links).edges
      = (addBenchmarkNodes bs st0).edges := rfl
  have hnodes : (build_knowledge_graph ps bs cs links).nodes
      = (addBenchmarkNodes bs st0).nodes ++ ps.filterMap (fun p =>
          if p.id ∈ links.map Edge.eto then some (portNode p) else none) := rfl
  have hids : nodeIds (build_knowledge_graph ps bs cs links)
      = (addBenchmarkNodes bs st0).existing ++ (ps.filterMap (fun p =>
          if p.id ∈ links.map Edge.eto then some (portNode p) else none)).map
            Node.id := by
    rw [nodeIds, hnodes, List.map_append, abn_nodes_ids bs st0 rfl]
  have hmemEx : ∀ x, x ∈ (addBenchmarkNodes bs st0).existing →
      x ∈ nodeIds (build_knowledge_graph ps bs cs links) := by
    intro x hx
    rw [hids]
    exact List.mem_append_left _ hx
  have hport : ∀ v, (∃ p ∈ ps, p.id = v) → v ∈ links.map Edge.eto →
      v ∈ nodeIds (build_knowledge_graph ps bs cs links) := by
    rintro v ⟨p, hp, hpid⟩ hv
    rw [hids]
    apply List.mem_append_right
    apply List.mem_map.mpr
    refine ⟨portNode p, List.mem_filterMap.mpr ⟨p, hp, ?_⟩, hpid⟩
    rw [if_pos (hpid ▸ hv)]
  rw [hedges] at he
  rcases abn_edges_decomp bs st0 e he with hl | ⟨b, hb, hkey, hshape⟩
  · -- a dynamic link
    have hl' : e ∈ links := hl
    obtain ⟨b, hbmem, hres⟩ := List.mem_filterMap.mp
      (show e ∈ bs.filterMap
        (resolveOne scorer (portLookup ps) (portNamesOf ps)) from hl')
    have hwl : b.id ∈ symbolMapKeys := H b hbmem (by rw [hres]; rfl)
    have h3 := abn_mem_existing bs st0 b hbmem hwl
    constructor
    · rw [resolveOne_efrom hres]
      exact hmemEx _ h3.1
    · obtain ⟨k, hk⟩ := resolveOne_eto hres
      obtain ⟨p, hpmem, hpid⟩ := portLookup_value hk
      exact hport e.eto ⟨p, hpmem, hpid⟩ (List.mem_map.mpr ⟨e, hl', rfl⟩)
  · have h3 := abn_mem_existing bs st0 b hb hkey
    rcases hshape with h | h
    · rw [h]
      exact ⟨hmemEx _ h3.2.1, hmemEx _ h3.1⟩
    · rw [h]
      exact ⟨hmemEx _ h3.1, hmemEx _ h3.2.2⟩

/-- C2 witness: on a concrete whitelisted run the emitted link's two
endpoints are both node ids of the assembled graph. -/
theorem c2_witness :
    linkSP.efrom ∈ nodeIds (build_knowledge_graph [portSIN] [benchSP] []
        (resolve_logistics_links eqScorer [benchSP] [portSIN]))
    ∧ linkSP.eto ∈ nodeIds (build_knowledge_graph [portSIN] [benchSP] []
        (resolve_logistics_links eqScorer [benchSP] [portSIN])) :=
  c2_amended eqScorer [portSIN] [benchSP] [] (by decide) linkSP (by decide)

/- ================================================================
   Theorems: claim C5
   ================================================================ -/

theorem nodup_filter_map_pairwise {q : Benchmark → Bool} {f : Benchmark → String} :
    ∀ {bs : List Benchmark}, ((bs.filter q).map f).Nodup →
      bs.Pairwise (fun b b' => q b = true → q b' = true → f b ≠ f b') := by
  intro bs
  induction bs with
  | nil => intro _; exact List.Pairwise.nil
  | cons b rest ih =>
    intro h
    rw [List.filter_cons] at h
    by_cases hq : q b = true
    · rw [if_pos hq, List.map_cons, List.nodup_cons] at h
      refine List.pairwise_cons.mpr ⟨?_, ih h.2⟩
      intro b' hb' _ hq' heq
      apply h.1
      rw [heq]
      exact List.mem_map.mpr ⟨b', List.mem_filter.mpr ⟨hb', hq'⟩, rfl⟩
    · rw [if_neg hq] at h
      refine List.pairwise_cons.mpr ⟨?_, ih h⟩
      intro b' _ hqb _
      exact absurd hqb hq

theorem abn_existing_nodup : ∀ (bs : List Benchmark) (st : GState),
    st.existing.Nodup →
    (∀ b ∈ bs, b.id ∈ symbolMapKeys → b.id ∉ st.existing) →
    bs.Pairwise (fun b b' => b.id ∈ symbolMapKeys → b'.id ∈ symbolMapKeys →
      b.id ≠ b'.id) →
    (∀ b ∈ bs, b.id ∈ symbolMapKeys → ∀ b' ∈ bs, b'.id ∈ symbolMapKeys →
      b'.id ≠ b.commodity ∧ b'.id ≠ b.currency) →
    (addBenchmarkNodes bs st).existing.Nodup := by
  intro bs
  induction bs with
  | nil => intro st h _ _ _; exact h
  | cons b rest ih =>
    intro st hnd hnotin hpw hcc
    rw [addBenchmarkNodes]
    split
    · rename_i hkey
      apply ih
      · exact stepBenchmark_existing_nodup b st hnd
          (hnotin b (List.mem_cons_self b rest) hkey)
      · intro b' hb' hk' hmem
        rcases stepBenchmark_existing_decomp b st _ hmem with h | h | h | h
        · exact hnotin b' (List.mem_cons_of_mem b hb') hk' h
        · exact (List.pairwise_cons.mp hpw).1 b' hb' hkey hk' h.symm
        · exact (hcc b (List.mem_cons_self b rest) hkey b'
            (List.mem_cons_of_mem b hb') hk').1 h
        · exact (hcc b (List.mem_cons_self b rest) hkey b'
            (List.mem_cons_of_mem b hb') hk').2 h
      · exact (List.pairwise_cons.mp hpw).2
      · intro b1 hb1 hk1 b2 hb2 hk2
        exact hcc b1 (List.mem_cons_of_mem b hb1) hk1 b2
          (List.mem_cons_of_mem b hb2) hk2
    · apply ih st hnd
      · intro b' hb' hk'
        exact hnotin b' (List.mem_cons_of_mem b hb') hk'
      · exact (List.pairwise_cons.mp hpw).2
      · intro b1 hb1 hk1 b2 hb2 hk2
        exact hcc b1 (List.mem_cons_of_mem b hb1) hk1 b2
          (List.mem_cons_of_mem b hb2) hk2

theorem portNodes_ids (ports : List Port) (linked : List String) :
    (ports.filterMap (fun p =>
      if p.id ∈ linked then some (portNode p) else none)).map Node.id
      = (ports.filter (fun p => decide (p.id ∈ linked))).map Port.id := by
  induction ports with
  | nil => rfl
  | cons p rest ih =>
    rw [List.filterMap_cons, List.filter_cons]
    by_cases hp : p.id ∈ linked
    · rw [if_pos hp, if_pos (decide_eq_true hp), List.map_cons, List.map_cons,
        ih]
      rfl
    · rw [if_neg hp, if_neg (by simpa using hp)]
      exact ih

/-- C5 counterexample: the benchmark loop appends a benchmark node without
checking `existing_nodes`, so a whitelisted benchmark whose id equals an
earlier benchmark's commodity id produces two nodes with the same id. -/
theorem c5_counterexample :
    ¬ (nodeIds (build_knowledge_graph [] [bC5a, bC5b] [] [])).Nodup := by
  decide

/-- C5 amended: commodity and currency nodes are deduplicated against
already-added node ids (first insertion wins), but benchmark and port nodes
are appended without a duplicate check.  Node ids are therefore pairwise
distinct provided the whitelisted benchmark ids are pairwise distinct and
none equals any whitelisted benchmark's commodity id or currency code, and
the linked ports have pairwise distinct ids, none equal to a benchmark-loop
node id. -/
theorem c5_amended (ps : List Port) (bs : List Benchmark) (cs : List Currency)
    (links : List Edge)
    (H1 : ((bs.filter (fun b => decide (b.id ∈ symbolMapKeys))).map
        Benchmark.id).Nodup)
    (H2 : ∀ b ∈ bs, b.id ∈ symbolMapKeys → ∀ b' ∈ bs, b'.id ∈ symbolMapKeys →
        b'.id ≠ b.commodity ∧ b'.id ≠ b.currency)
    (H3 : ((ps.filter (fun p => decide (p.id ∈ links.map Edge.eto))).map
        Port.id).Nodup)
    (H4 : ∀ p ∈ ps, p.id ∈ links.map Edge.eto → ∀ b ∈ bs,
        b.id ∈ symbolMapKeys →
          p.id ≠ b.id ∧ p.id ≠ b.commodity ∧ p.id ≠ b.currency) :
    (nodeIds (build_knowledge_graph ps bs cs links)).Nodup := by
  set st0 : GState := { nodes := [], edges := links, existing := [] } with hst0
  have hids : nodeIds (build_knowledge_graph ps bs cs links)
      = (addBenchmarkNodes bs st0).existing
        ++ (ps.filter (fun p => decide (p.id ∈ links.map Edge.eto))).map
            Port.id := by
    rw [nodeIds]
    show ((addBenchmarkNodes bs st0).nodes ++ ps.filterMap (fun p =>
      if p.id ∈ links.map Edge.eto then some (portNode p) else none)).map
        Node.id = _
    rw [List.map_append, abn_nodes_ids bs st0 rfl, portNodes_ids]
  rw [hids]
  apply List.Nodup.append
  · apply abn_existing_nodup bs st0 List.nodup_nil
    · intro b _ _ hmem
      simp [hst0] at hmem
    · exact (nodup_filter_map_pairwise H1).imp
        (fun h hk hk' => h (decide_eq_true hk) (decide_eq_true hk'))
    · exact H2
  · exact H3
  · intro x hx hx'
    rcases abn_existing_decomp bs st0 x hx with h | ⟨b, hb, hk, hcase⟩
    · simp [hst0] at h
    · obtain ⟨p, hpf, hpid⟩ := List.mem_map.mp hx'
      obtain ⟨hpmem, hplinkb⟩ := List.mem_filter.mp hpf
      have hplink : p.id ∈ links.map Edge.eto := of_decide_eq_true hplinkb
      have h4 := H4 p hpmem hplink b hb hk
      rcases hcase with h | h | h
      · exact h4.1 (by rw [hpid, h])
      · exact h4.2.1 (by rw [hpid, h])
      · exact h4.2.2 (by rw [hpid, h])

/-- C5 witness: on a concrete input satisfying the disjointness hypotheses,
all node ids of the assembled graph are pairwise distinct. -/
theorem c5_witness :
    (nodeIds (build_knowledge_graph [portSIN] [benchSP] [] [linkSP])).Nodup :=
  c5_amended [portSIN] [benchSP] [] [linkSP]
    (by decide) (by decide) (by decide) (by decide)

/- ================================================================
   Theorems: claim C6
   ================================================================ -/

theorem mem_port_filterMap {ports : List Port} {linked : List String} {n : Node} :
    n ∈ ports.filterMap (fun p =>
        if p.id ∈ linked then some (portNode p) else none)
      ↔ ∃ p ∈ ports, p.id ∈ linked ∧ n = portNode p := by
  rw [List.mem_filterMap]
  constructor
  · rintro ⟨p, hp, hsome⟩
    by_cases h : p.id ∈ linked
    · rw [if_pos h] at hsome
      exact ⟨p, hp, h, (Option.some_inj.mp hsome).symm⟩
    · rw [if_neg h] at hsome; cases hsome
  · rintro ⟨p, hp, h, hn⟩
    exact ⟨p, hp, by rw [if_pos h, hn]⟩

/-- C6 counterexample: a port whose id collides with a currency code.  With
no dynamic links at all, the graph still contains a node whose id equals the
port's id (the currency node), so "a node with P's id exists iff P's id is
the target of a link" fails as stated. -/
theorem c6_counterexample :
    ((build_knowledge_graph [portUSD] [benchSP] [] []).nodes.any
        (fun n => n.id == portUSD.id)) = true
    ∧ (([] : List Edge).any (fun l => l.eto == portUSD.id)) = false := by
  decide

/-- C6 amended: for every port P in the ingested list, the graph contains a
node **in group "port"** with P's id iff P's id is the `to` endpoint of at
least one dynamic link passed in (the unqualified claim fails when a
benchmark-loop node id collides with a port id). -/
theorem c6_amended (ps : List Port) (bs : List Benchmark) (cs : List Currency)
    (links : List Edge) (p : Port) (hp : p ∈ ps) :
    ((build_knowledge_graph ps bs cs links).nodes.any
        (fun n => n.group == "port" && n.id == p.id))
      = links.any (fun l => l.eto == p.id) := by
  set st0 : GState := { nodes := [], edges := links, existing := [] } with hst0
  have hnodes : (build_knowledge_graph ps bs cs links).nodes
      = (addBenchmarkNodes bs st0).nodes ++ ps.filterMap (fun p =>
          if p.id ∈ links.map Edge.eto then some (portNode p) else none) := rfl
  rw [Bool.eq_iff_iff, List.any_eq_true, List.any_eq_true]
  simp only [Bool.and_eq_true, beq_iff_eq]
  constructor
  · rintro ⟨n, hn, hgroup, hid⟩
    rw [hnodes] at hn
    rcases List.mem_append.mp hn with h | h
    · rcases abn_nodes_decomp bs st0 n h with h' | h' | h' | h'
      · simp [hst0] at h'
      · rw [h'] at hgroup; exact absurd hgroup (by decide)
      · rw [h'] at hgroup; exact absurd hgroup (by decide)
      · rw [h'] at hgroup; exact absurd hgroup (by decide)
    · obtain ⟨p', hp', hlinked, hnp⟩ := mem_port_filterMap.mp h
      have hpid : p'.id = p.id := by rw [← hid, hnp]; rfl
      rw [hpid] at hlinked
      obtain ⟨l, hl, hlto⟩ := List.mem_map.mp hlinked
      exact ⟨l, hl, hlto⟩
  · rintro ⟨l, hl, hlto⟩
    refine ⟨portNode p, ?_, rfl, rfl⟩
    rw [hnodes]
    exact List.mem_append_right _ (mem_port_filterMap.mpr
      ⟨p, hp, List.mem_map.mpr ⟨l, hl, hlto⟩, rfl⟩)

/-- C6 witness: concretely, `portSIN` is the target of the one passed link
and the graph contains a port-group node with its id. -/
theorem c6_witness :
    ((build_knowledge_graph [portSIN] [benchSP] [] [linkSP]).nodes.any
        (fun n => n.group == "port" && n.id == portSIN.id))
      = ([linkSP].any (fun l => l.eto == portSIN.id)) :=
  c6_amended [portSIN] [benchSP] [] [linkSP] portSIN (by decide)

/- ================================================================
   Theorems: claims C8 and C9
   ================================================================ -/

/-- C8: whenever the external download raises any exception, the `except`
branch of `fetch_market_data` returns exactly the empty well-formed result
`{"dates": [], "datasets": {}}`, so the pipeline continues. -/
theorem c8_fetch_failure_empty (e : String) :
    fetch_market_data (Except.error e) = { dates := [], datasets := [] } := rfl

theorem ffill_length : ∀ (l : List (Option ℚ)) (a : Option ℚ),
    (ffill l a).length = l.length := by
  intro l
  induction l with
  | nil => intro a; rfl
  | cons o t ih =>
    intro a
    cases o with
    | none => rw [ffill]; simp [ih]
    | some v => rw [ffill]; simp [ih]

theorem processColumn_length (col : List (Option ℚ)) :
    (processColumn col).length = col.length := by
  rw [processColumn, roundCol, fillnaZero, List.length_map, List.length_map,
    ffill_length]

theorem processColumn_isSome (col : List (Option ℚ)) :
    ∀ v ∈ processColumn col, v.isSome = true := by
  intro v hv
  rw [processColumn, roundCol, fillnaZero, List.map_map] at hv
  obtain ⟨o, _, hveq⟩ := List.mem_map.mp hv
  rw [← hveq]
  rfl

/-- C9: in every result of `fetch_market_data` on a well-formed download,
each per-symbol dataset has the same length as the `dates` sequence, and
after the forward-fill-then-zero-fill pass every value is an actual number
(no NaN remains: `none` cells are forward-filled, residual ones set to 0,
then values rounded). -/
theorem c9_market_shape (download : Except String RawMarket)
    (h : wellFormedDownload download) :
    ∀ s col, (s, col) ∈ (fetch_market_data download).datasets →
      col.length = (fetch_market_data download).dates.length
      ∧ col.all (fun v => v.isSome) = true := by
  cases download with
  | error e =>
    intro s col hmem
    simp [fetch_market_data] at hmem
  | ok data =>
    intro s col hmem
    obtain ⟨kv, hkv, hsome⟩ := List.mem_filterMap.mp hmem
    cases hcol : colLookup data.columns kv.2 with
    | none => rw [hcol] at hsome; cases hsome
    | some col0 =>
      rw [hcol] at hsome
      have hpair : (kv.1, processColumn col0) = (s, col) :=
        Option.some_inj.mp hsome
      have hcoleq : col = processColumn col0 := by
        have := congrArg Prod.snd hpair
        exact this.symm
      have hcol0len : col0.length = data.dates.length := by
        rw [colLookup] at hcol
        cases hf : data.columns.find? (fun kv' => kv'.1 == kv.2) with
        | none => rw [hf] at hcol; cases hcol
        | some kv' =>
          rw [hf] at hcol
          have hv : kv'.2 = col0 := Option.some_inj.mp hcol
          rw [← hv]
          exact h kv' (List.mem_of_find?_eq_some hf)
      constructor
      · rw [hcoleq, processColumn_length, hcol0len]
        rfl
      · rw [hcoleq, List.all_eq_true]
        intro v hv
        exact processColumn_isSome col0 v hv

/-- C9 witness: a concrete well-formed download with one known ticker and a
leading NaN; the cleaned dataset has the dates' length and no missing value. -/
theorem c9_witness :
    (rawOkMarket.columns.all
        (fun kv => kv.2.length == rawOkMarket.dates.length)) = true
    ∧ ((processColumn [none, some 5]).length
          = (fetch_market_data (Except.ok rawOkMarket)).dates.length
        ∧ (processColumn [none, some 5]).all (fun v => v.isSome) = true) :=
  ⟨by decide,
   c9_market_shape (Except.ok rawOkMarket)
     (by
       intro kv hkv
       have hkv' : kv = ("CL=F", [none, some 5]) := by
         simpa [rawOkMarket] using hkv
       rw [hkv']
       rfl)
     "AAGZU00" (processColumn [none, some 5]) (List.mem_cons_self _ _)⟩

/- ================================================================
   Theorems: claim C7
   ================================================================ -/

/-- C7: a benchmark appears in the final payload's `benchmarks` list iff it
is in the ingested list and its id is a `SYMBOL_MAP` key; and concretely a
non-whitelisted benchmark absent from that list can still appear in the
payload's graph (as the source of its dynamic link). -/
theorem c7_payload_whitelist :
    (∀ (scorer : String → String → ℚ) (ps : List Port) (bs : List Benchmark)
        (cs : List Currency) (dl : Except String RawMarket) (b : Benchmark),
      b ∈ (mainPayload scorer ps bs cs dl).benchmarks
        ↔ b ∈ bs ∧ b.id ∈ symbolMapKeys)
    ∧ (benchB1 ∉ (mainPayload eqScorer [portSIN] [benchB1] []
          (Except.error "download failed")).benchmarks
       ∧ benchB1.id ∈ ((mainPayload eqScorer [portSIN] [benchB1] []
          (Except.error "download failed")).graph.edges.map Edge.efrom)) := by
  constructor
  · intro scorer ps bs cs dl b
    show b ∈ bs.filter (fun b => decide (b.id ∈ symbolMapKeys)) ↔ _
    rw [List.mem_filter]
    constructor
    · rintro ⟨h1, h2⟩
      exact ⟨h1, of_decide_eq_true h2⟩
    · rintro ⟨h1, h2⟩
      exact ⟨h1, decide_eq_true h2⟩
  · exact ⟨by decide, by decide⟩

/- ================================================================
   Theorems: claim C10
   ================================================================ -/

/-- C10 (code bug): the renderer does not read the artifact the enrichment
stage writes.  `generate()` opens `data/processed/dashboard_data.json`,
which differs from the enrichment output
`data/enriched/dashboard_payload.json` and from every artifact any earlier
stage writes. -/
theorem c10_renderer_input_path :
    rendererInputPath ≠ enrichOutputPath
    ∧ rendererInputPath ∉ writtenArtifactPaths := by decide

/- ================================================================
   Theorems: claim C4
   ================================================================ -/

theorem buildLookupPy_ok : ∀ (ps : List PortRaw) (d : List (String × String)),
    (∀ p ∈ ps, p.name.isSome = true) →
      buildLookupPy ps d
        = .ok ((ps.map (fun p => toPort p (p.name.getD ""))).foldl
            (fun d p => dictInsert d (clean_text p.name) p.id) d) := by
  intro ps
  induction ps with
  | nil => intro d _; rfl
  | cons p rest ih =>
    intro d h
    have hp := h p (List.mem_cons_self p rest)
    cases hname : p.name with
    | none => rw [hname] at hp; cases hp
    | some nm =>
      rw [buildLookupPy, hname]
      dsimp only [clean_text_py]
      rw [ih _ (fun p' hp' => h p' (List.mem_cons_of_mem p hp'))]
      rw [List.map_cons, List.foldl_cons, hname]
      rfl

theorem resolveLoopPy_ok (scorer : String → String → ℚ)
    (lookup : List (String × String)) (names : List String) :
    ∀ (bs : List BenchmarkRaw),
      (∀ b ∈ bs, b.description.isSome = true) →
        resolveLoopPy scorer lookup names bs
          = .ok ((bs.map (fun b => toBenchmark b (b.description.getD ""))).filterMap
              (resolveOne scorer lookup names)) := by
  intro bs
  induction bs with
  | nil => intro _; rfl
  | cons b rest ih =>
    intro h
    have hb := h b (List.mem_cons_self b rest)
    cases hdesc : b.description with
    | none => rw [hdesc] at hb; cases hb
    | some d =>
      rw [resolveLoopPy, hdesc]
      dsimp only
      rw [ih (fun b' hb' => h b' (List.mem_cons_of_mem b hb'))]
      dsimp only
      rw [List.map_cons, List.filterMap_cons, hdesc]
      simp only [Option.getD_some]
      cases hres : resolveOne scorer lookup names (toBenchmark b d) with
      | none => rfl
      | some l => rfl

/-- C4 counterexample: a missing/malformed description is not treated as the
empty string — the pass raises (`AttributeError`) at that benchmark instead
of completing. -/
theorem c4_counterexample :
    resolve_links_py eqScorer [rawBadBench] []
      = Except.error PyExc.attributeError := rfl

/-- C4 amended: `resolve_logistics_links` raises on the first missing or
non-string description or port name; only when every description and port
name is a proper string does the pass complete over all the benchmarks, in
which case it agrees with the pure resolver. -/
theorem c4_amended (scorer : String → String → ℚ) (bs : List BenchmarkRaw)
    (ps : List PortRaw)
    (hps : ∀ p ∈ ps, p.name.isSome = true)
    (hbs : ∀ b ∈ bs, b.description.isSome = true) :
    resolve_links_py scorer bs ps
      = .ok (resolve_logistics_links scorer
          (bs.map (fun b => toBenchmark b (b.description.getD "")))
          (ps.map (fun p => toPort p (p.name.getD "")))) := by
  unfold resolve_links_py
  rw [buildLookupPy_ok ps [] hps]
  dsimp only
  rw [resolveLoopPy_ok scorer _ _ bs hbs]
  rfl

/-- C4 witness: with proper strings everywhere the dynamic-typing pass
completes and agrees with the pure resolver. -/
theorem c4_witness :
    resolve_links_py eqScorer [rawGoodBench] [rawGoodPort]
      = Except.ok (resolve_logistics_links eqScorer
          ([rawGoodBench].map (fun b => toBenchmark b (b.description.getD "")))
          ([rawGoodPort].map (fun p => toPort p (p.name.getD "")))) :=
  c4_amended eqScorer [rawGoodBench] [rawGoodPort] (by decide) (by decide)

end DunlKG
